import Mathlib

/-
Verification of the `merge` stdlib function of the VRL value-transformation
runtime (source: src/lib/vrl/stdlib/src/merge.rs).

The development has two embeddings of the recursive map-merge algorithm
`merge_maps`:

1. A *content-level* model (`PValue`, `mergeEntries`, `mergeMaps`): values are
   pure trees, objects are key-sorted association lists mirroring
   `BTreeMap<String, _>` content.  The shared-ownership cells (`SharedValue`)
   are erased; this model captures the key/value content computed by
   `merge_maps`.

2. A *cell-level* model (`Value`, `Heap`, `mergeLoop`, `mergeFuel`,
   `resolveMerge`): objects map keys to addresses of shared mutable cells
   (`SharedValue` = `Rc<RefCell<Value>>`), a heap assigns a `Value` to every
   address, and the merge threads the heap while tracking the outstanding
   `RefCell` borrows, so that borrow conflicts and the `unwrap` panic in
   `MergeFn::resolve` are represented (`Option.none` / `EvalError.crashed`).
   Recursion depth is bounded by an explicit `fuel` parameter, mirroring the
   bounded call stack of the recursive Rust implementation.

The compile-time contract (`Merge::parameters`, argument binding, and the
shallow type-descriptor merge used by `MergeFn::type_def`) is embedded at the
end; the parts of it that live outside this repository's sources
(`ArgumentList`, `TypeDef::merge_shallow`) are modelled from the spec.
-/

namespace Vrl

/-! ## Part 1: content-level model of `merge_maps` -/

/-- Modelled from the spec (§3 Data Model): the dynamically-typed `Value` of
the host record model, content-level (no sharing).  The `value` crate that
defines the Rust `Value` enum is not part of this repository's sources; per
the spec only the `Object` case versus "any other value" matters to the merge
core, so a representative set of the listed kinds is included.  Objects are
key-sorted association lists, mirroring `BTreeMap<String, _>` content. -/
inductive PValue where
  | null
  | boolean (b : Bool)
  | integer (n : Int)
  | bytes (s : String)
  | array (xs : List PValue)
  | object (m : List (String × PValue))
  | timestamp (t : Int)
  | regex (r : String)

/-- A content-level object: the entry list of a `BTreeMap<String, Value>`
(in iteration order, i.e. sorted by key when the map invariant holds). -/
abbrev PObj := List (String × PValue)

/-- `BTreeMap::get`: first entry with the given key (unique when keys are
nodup, which the `BTreeMap` invariant guarantees). -/
def pget : PObj → String → Option PValue
  | [], _ => none
  | (k2, v) :: rest, k => if k2 = k then some v else pget rest k

/-- `BTreeMap::insert` content semantics on a key-sorted entry list: replaces
the entry when the key is present, otherwise inserts at the sorted position. -/
def pinsert : PObj → String → PValue → PObj
  | [], k, v => [(k, v)]
  | (k2, v2) :: rest, k, v =>
    if k < k2 then (k, v) :: (k2, v2) :: rest
    else if k = k2 then (k, v) :: rest
    else (k2, v2) :: pinsert rest k v

/-- The key list of an object, in iteration order. -/
def pkeys (m : PObj) : List String := m.map Prod.fst

/-- The `BTreeMap` ordering invariant: entries strictly sorted by key. -/
def sortedKeys (m : PObj) : Prop := List.Pairwise (fun p q => p.1 < q.1) m

/-- Content-level semantics of `merge_maps` (merge.rs): the loop
`for (key2, value2) in map2.iter()`, merging the entries of the second map
into the first.  When `deep` is set, the looked-up destination value and the
source value are both objects, the function recurses into the pair of child
objects and the destination entry keeps the (recursively merged) child;
otherwise `map1.insert(key2.clone(), value2.clone())` overwrites the entry.
The first argument is the source entry list (`map2`), the second the
destination (`map1`). -/
def mergeEntries (deep : Bool) : PObj → PObj → PObj
  | [], m1 => m1
  | (key2, value2) :: rest, m1 =>
    match deep, pget m1 key2, value2 with
    | true, some (PValue.object child1), PValue.object child2 =>
        mergeEntries deep rest
          (pinsert m1 key2 (PValue.object (mergeEntries deep child2 child1)))
    | _, _, _ => mergeEntries deep rest (pinsert m1 key2 value2)
termination_by l _ => sizeOf l

/-- `merge_maps(map1, map2, deep)`, content level: merge `m2` (source) into
`m1` (destination). -/
def mergeMaps (m1 m2 : PObj) (deep : Bool) : PObj := mergeEntries deep m2 m1

/-- The value stored at a source key after one merge step: the recursive
merge of the two child objects when `deep` holds and both the existing
destination value and the source value are objects, the source value
otherwise (spec §4.2, steps 2 and 3). -/
def mergedValue (deep : Bool) (old : Option PValue) (v2 : PValue) : PValue :=
  match deep, old, v2 with
  | true, some (PValue.object child1), PValue.object child2 =>
      PValue.object (mergeEntries deep child2 child1)
  | _, _, _ => v2

theorem mergeEntries_nil (deep : Bool) (m1 : PObj) : mergeEntries deep [] m1 = m1 := by
  simp [mergeEntries]

theorem mergeEntries_cons (deep : Bool) (k2 : String) (v2 : PValue) (rest : PObj) (m1 : PObj) :
    mergeEntries deep ((k2, v2) :: rest) m1 =
      mergeEntries deep rest (pinsert m1 k2 (mergedValue deep (pget m1 k2) v2)) := by
  rcases deep <;> rcases h : pget m1 k2 with _ | w <;>
    [skip; skip; skip; rcases w] <;> rcases v2 <;> simp [mergeEntries, mergedValue, h]

theorem pget_pinsert_self (m : PObj) (k : String) (v : PValue) :
    pget (pinsert m k v) k = some v := by
  induction m with
  | nil => simp [pinsert, pget]
  | cons p rest ih =>
    obtain ⟨k2, v2⟩ := p
    by_cases h1 : k < k2
    · simp [pinsert, pget, h1]
    · by_cases h2 : k = k2
      · simp [pinsert, pget, h1, h2]
      · have h3 : k2 ≠ k := fun h => h2 h.symm
        simp [pinsert, pget, h1, h2, h3, ih]

theorem pget_pinsert_ne (m : PObj) (k k' : String) (v : PValue) (h : k' ≠ k) :
    pget (pinsert m k v) k' = pget m k' := by
  have hkk : k ≠ k' := Ne.symm h
  induction m with
  | nil => simp [pinsert, pget, hkk]
  | cons p rest ih =>
    obtain ⟨k2, v2⟩ := p
    by_cases h1 : k < k2
    · simp [pinsert, pget, h1, hkk]
    · by_cases h2 : k = k2
      · subst h2
        simp [pinsert, pget, h1, hkk]
      · simp [pinsert, pget, h1, h2, ih]

theorem pget_none_iff (m : PObj) (k : String) :
    pget m k = none ↔ k ∉ pkeys m := by
  induction m with
  | nil => simp [pget, pkeys]
  | cons p rest ih =>
    obtain ⟨k2, v2⟩ := p
    by_cases h : k2 = k
    · subst h
      simp [pget, pkeys]
    · have h2 : k ≠ k2 := Ne.symm h
      simp [pget, pkeys, h, h2, ih]

theorem pget_isSome_pinsert (m : PObj) (k k' : String) (v : PValue) :
    (pget (pinsert m k v) k').isSome ↔ k' = k ∨ (pget m k').isSome := by
  by_cases h : k' = k
  · subst h
    simp [pget_pinsert_self]
  · simp [pget_pinsert_ne m k k' v h, h]

theorem mem_pinsert (m : PObj) (k : String) (v : PValue) (q : String × PValue)
    (hq : q ∈ pinsert m k v) : q = (k, v) ∨ q ∈ m := by
  induction m with
  | nil =>
    simp only [pinsert] at hq
    left
    exact List.mem_singleton.mp hq
  | cons p rest ih =>
    obtain ⟨k2, v2⟩ := p
    by_cases h1 : k < k2
    · simp only [pinsert, if_pos h1] at hq
      rcases List.mem_cons.mp hq with h4 | h4
      · left; exact h4
      · right; exact h4
    · by_cases h2 : k = k2
      · simp only [pinsert, if_neg h1, if_pos h2] at hq
        rcases List.mem_cons.mp hq with h4 | h4
        · left; rw [h4, h2]
        · right; exact List.mem_cons_of_mem _ h4
      · simp only [pinsert, if_neg h1, if_neg h2] at hq
        rcases List.mem_cons.mp hq with h4 | h4
        · right; rw [h4]; exact List.mem_cons_self _ _
        · rcases ih h4 with h5 | h5
          · left; exact h5
          · right; exact List.mem_cons_of_mem _ h5

theorem sortedKeys_pinsert (m : PObj) (k : String) (v : PValue) (hs : sortedKeys m) :
    sortedKeys (pinsert m k v) := by
  induction m with
  | nil => simp [pinsert, sortedKeys]
  | cons p rest ih =>
    obtain ⟨k2, v2⟩ := p
    rw [sortedKeys, List.pairwise_cons] at hs
    obtain ⟨hall, hrest⟩ := hs
    by_cases h1 : k < k2
    · rw [sortedKeys, pinsert]
      simp only [h1, if_true]
      refine List.Pairwise.cons ?_ (List.Pairwise.cons hall hrest)
      intro q hq
      rcases List.mem_cons.mp hq with hq2 | hq2
      · subst hq2; exact h1
      · exact lt_trans h1 (hall q hq2)
    · by_cases h2 : k = k2
      · subst h2
        rw [sortedKeys, pinsert]
        simp only [h1, if_false, if_true]
        exact List.Pairwise.cons hall hrest
      · have h3 : k2 < k := by
          rcases lt_trichotomy k k2 with h | h | h
          · exact absurd h h1
          · exact absurd h h2
          · exact h
        rw [sortedKeys, pinsert]
        simp only [h1, h2, if_false]
        rw [List.pairwise_cons]
        refine ⟨?_, ih hrest⟩
        intro q hq
        rcases mem_pinsert rest k v q hq with h4 | h4
        · rw [h4]; exact h3
        · exact hall q h4

theorem sortedKeys_nodup (m : PObj) (hs : sortedKeys m) : (pkeys m).Nodup := by
  induction m with
  | nil => simp [pkeys]
  | cons p rest ih =>
    rw [sortedKeys, List.pairwise_cons] at hs
    simp only [pkeys, List.map_cons, List.nodup_cons]
    constructor
    · intro hmem
      obtain ⟨q, hq, hq2⟩ := List.mem_map.mp hmem
      have h3 := hs.1 q hq
      rw [hq2] at h3
      exact lt_irrefl _ h3
    · exact ih hs.2

/-- Frame property of the loop: a key that does not occur in the source map
is looked up unchanged in the destination. -/
theorem pget_mergeEntries_notin (deep : Bool) (m2 : PObj) (k : String) :
    ∀ m1 : PObj, k ∉ pkeys m2 → pget (mergeEntries deep m2 m1) k = pget m1 k := by
  induction m2 with
  | nil =>
    intro m1 _
    rw [mergeEntries_nil]
  | cons p rest ih =>
    obtain ⟨k2, v2⟩ := p
    intro m1 hk
    simp only [pkeys, List.map_cons, List.mem_cons] at hk
    push_neg at hk
    rw [mergeEntries_cons, ih _ (by simpa [pkeys] using hk.2),
      pget_pinsert_ne _ _ _ _ hk.1]

theorem mergeEntries_per_key (deep : Bool) (m2 : PObj) :
    ∀ (m1 : PObj) (k : String) (v2 : PValue), (pkeys m2).Nodup → pget m2 k = some v2 →
      pget (mergeEntries deep m2 m1) k = some (mergedValue deep (pget m1 k) v2) := by
  induction m2 with
  | nil =>
    intro m1 k v2 _ hk
    simp [pget] at hk
  | cons p rest ih =>
    intro m1 k v2 hnd hk
    obtain ⟨k2, w⟩ := p
    simp only [pkeys, List.map_cons, List.nodup_cons] at hnd
    by_cases he : k2 = k
    · subst he
      rw [pget, if_pos rfl] at hk
      have hw : w = v2 := Option.some.inj hk
      subst hw
      rw [mergeEntries_cons, pget_mergeEntries_notin deep rest _ _ (by simpa [pkeys] using hnd.1),
        pget_pinsert_self]
    · rw [pget, if_neg he] at hk
      rw [mergeEntries_cons, ih _ k v2 hnd.2 hk,
        pget_pinsert_ne m1 k2 k _ (Ne.symm he)]

/-- Claim C1: for every `(key, sourceValue)` pair of the source object, the
merge sets the destination entry at that key to the recursive merge of the
two child objects when `deep` is set and both the pre-existing destination
value and the source value are objects, and to the source value in every
other case (`mergedValue` captures exactly this case split of
`merge_maps`). -/
theorem merge_maps_per_key (deep : Bool) (m1 m2 : PObj) (k : String) (v2 : PValue)
    (hnd : (pkeys m2).Nodup) (hk : pget m2 k = some v2) :
    pget (mergeMaps m1 m2 deep) k = some (mergedValue deep (pget m1 k) v2) :=
  mergeEntries_per_key deep m2 m1 k v2 hnd hk

/-- Witness for claim C1: a concrete deep merge where both sides hold an
object under the key. -/
theorem merge_maps_per_key_witness :
    (pkeys [("a", PValue.object [("y", PValue.integer 2)])]).Nodup ∧
    pget (mergeMaps [("a", PValue.object [("x", PValue.integer 1)])]
        [("a", PValue.object [("y", PValue.integer 2)])] true) "a"
      = some (mergedValue true (some (PValue.object [("x", PValue.integer 1)]))
          (PValue.object [("y", PValue.integer 2)])) :=
  ⟨by decide,
   merge_maps_per_key true [("a", PValue.object [("x", PValue.integer 1)])]
     [("a", PValue.object [("y", PValue.integer 2)])] "a"
     (PValue.object [("y", PValue.integer 2)]) (by decide) rfl⟩

theorem mergeEntries_keys (deep : Bool) (m2 : PObj) :
    ∀ m1 : PObj, sortedKeys m1 →
      (∀ k, (pget (mergeEntries deep m2 m1) k).isSome
          ↔ ((pget m1 k).isSome ∨ (pget m2 k).isSome))
      ∧ sortedKeys (mergeEntries deep m2 m1) := by
  induction m2 with
  | nil =>
    intro m1 hs
    constructor
    · intro k
      simp [mergeEntries_nil, pget]
    · rw [mergeEntries_nil]
      exact hs
  | cons p rest ih =>
    intro m1 hs
    obtain ⟨k2, w⟩ := p
    rw [mergeEntries_cons]
    obtain ⟨ihk, ihs⟩ :=
      ih (pinsert m1 k2 (mergedValue deep (pget m1 k2) w)) (sortedKeys_pinsert _ _ _ hs)
    refine ⟨?_, ihs⟩
    intro k
    rw [ihk k, pget_isSome_pinsert]
    by_cases he : k2 = k
    · subst he
      simp [pget]
    · have he2 : k ≠ k2 := Ne.symm he
      simp only [pget, if_neg he, he2, false_or]

/-- Claim C5: for every destination, source and deep flag, the key set of
the merged object is the union of the two key sets, and the result's entry
list (the `BTreeMap` iteration order) is strictly sorted by key. -/
theorem merge_maps_keys_union_sorted (deep : Bool) (m1 m2 : PObj) (hs : sortedKeys m1) :
    (∀ k, (pget (mergeMaps m1 m2 deep) k).isSome
        ↔ ((pget m1 k).isSome ∨ (pget m2 k).isSome))
    ∧ sortedKeys (mergeMaps m1 m2 deep) :=
  mergeEntries_keys deep m2 m1 hs

/-- Witness for claim C5 at a concrete input. -/
theorem merge_maps_keys_union_sorted_witness :
    sortedKeys [("a", PValue.integer 1)] ∧
    ((∀ k, (pget (mergeMaps [("a", PValue.integer 1)] [("b", PValue.integer 2)] false) k).isSome
        ↔ ((pget [("a", PValue.integer 1)] k).isSome
            ∨ (pget [("b", PValue.integer 2)] k).isSome))
      ∧ sortedKeys (mergeMaps [("a", PValue.integer 1)] [("b", PValue.integer 2)] false)) :=
  ⟨List.pairwise_singleton _ _,
   merge_maps_keys_union_sorted false [("a", PValue.integer 1)] [("b", PValue.integer 2)]
     (List.pairwise_singleton _ _)⟩

/-- Claim C6: merging an empty source object into any destination, with
either deep flag, leaves the destination's content unchanged. -/
theorem merge_maps_empty_source (deep : Bool) (m1 : PObj) : mergeMaps m1 [] deep = m1 :=
  mergeEntries_nil deep m1

/-- The nested `BTreeMap` invariant: every object occurring in the value is
strictly key-sorted. -/
def PValue.wf : PValue → Prop
  | PValue.object m => sortedKeys m ∧ ∀ p ∈ m, PValue.wf p.2
  | _ => True
termination_by v => sizeOf v
decreasing_by
  rename_i hmem
  have h1 := List.sizeOf_lt_of_mem hmem
  obtain ⟨a, b⟩ := p
  simp only [Prod.mk.sizeOf_spec] at h1
  simp only [PValue.object.sizeOf_spec]
  omega

theorem pget_mem (m : PObj) (k : String) (v : PValue) (h : pget m k = some v) :
    (k, v) ∈ m := by
  induction m with
  | nil => simp [pget] at h
  | cons p rest ih =>
    obtain ⟨k2, w⟩ := p
    by_cases he : k2 = k
    · subst he
      rw [pget, if_pos rfl] at h
      have hw : w = v := Option.some.inj h
      subst hw
      exact List.mem_cons_self _ _
    · rw [pget, if_neg he] at h
      exact List.mem_cons_of_mem _ (ih h)

/-- Re-inserting the value already stored at a key leaves a sorted map
unchanged. -/
theorem pinsert_self (m : PObj) (k : String) (w : PValue) (hs : sortedKeys m)
    (h : pget m k = some w) : pinsert m k w = m := by
  induction m with
  | nil => simp [pget] at h
  | cons p rest ih =>
    obtain ⟨k2, v2⟩ := p
    rw [sortedKeys, List.pairwise_cons] at hs
    by_cases he : k2 = k
    · subst he
      rw [pget, if_pos rfl] at h
      have hw : w = v2 := (Option.some.inj h).symm
      subst hw
      rw [pinsert, if_neg (lt_irrefl k2), if_pos rfl]
    · rw [pget, if_neg he] at h
      have hmem := pget_mem rest k w h
      have hlt : k2 < k := hs.1 (k, w) hmem
      rw [pinsert, if_neg (lt_asymm hlt), if_neg (Ne.symm he), ih hs.2 h]

/-- Every entry of the first map is also an entry of the second, content
level. -/
def Submap (m2 m1 : PObj) : Prop := ∀ k v, pget m2 k = some v → pget m1 k = some v

theorem merge_submap_eq (deep : Bool) :
    ∀ (n : Nat) (m2 m1 : PObj), sizeOf m2 ≤ n → PValue.wf (PValue.object m1) →
      (pkeys m2).Nodup → Submap m2 m1 → mergeEntries deep m2 m1 = m1 := by
  intro n
  induction n with
  | zero =>
    intro m2 m1 hsz _ _ _
    exfalso
    have h1 : 1 ≤ sizeOf m2 := by cases m2 <;> simp_arith
    omega
  | succ n ih =>
    intro m2 m1 hsz hwf hnd hsub
    simp only [PValue.wf] at hwf
    match m2, hsz, hnd, hsub with
    | [], _, _, _ => exact mergeEntries_nil deep m1
    | (k2, v2) :: rest, hsz, hnd, hsub =>
      have hget1 : pget m1 k2 = some v2 := hsub k2 v2 (by rw [pget, if_pos rfl])
      simp only [pkeys, List.map_cons, List.nodup_cons] at hnd
      have hsubrest : Submap rest m1 := by
        intro k v hkv
        by_cases he : k = k2
        · subst he
          exfalso
          have hnone : pget rest k = none :=
            (pget_none_iff rest k).mpr (by simpa [pkeys] using hnd.1)
          rw [hnone] at hkv
          exact Option.noConfusion hkv
        · exact hsub k v (by rw [pget, if_neg (Ne.symm he)]; exact hkv)
      have hszrest : sizeOf rest ≤ n := by
        simp only [List.cons.sizeOf_spec, Prod.mk.sizeOf_spec] at hsz
        omega
      have hmv : mergedValue deep (pget m1 k2) v2 = v2 := by
        rw [hget1]
        cases deep with
        | false => cases v2 <;> rfl
        | true =>
          cases v2 with
          | object c =>
            have hwfc : PValue.wf (PValue.object c) :=
              hwf.2 (k2, PValue.object c) (pget_mem m1 k2 _ hget1)
            have hszc : sizeOf c ≤ n := by
              simp only [List.cons.sizeOf_spec, Prod.mk.sizeOf_spec,
                PValue.object.sizeOf_spec] at hsz
              omega
            have hrec : mergeEntries true c c = c := by
              refine ih c c hszc hwfc ?_ (fun _ _ h => h)
              have hsc : sortedKeys c := by
                simp only [PValue.wf] at hwfc
                exact hwfc.1
              exact sortedKeys_nodup c hsc
            rw [mergedValue, hrec]
          | null => rfl
          | boolean b => rfl
          | integer i => rfl
          | bytes s => rfl
          | array xs => rfl
          | timestamp t => rfl
          | regex r => rfl
      rw [mergeEntries_cons, hmv,
        pinsert_self m1 k2 v2 hwf.1 hget1]
      refine ih rest m1 hszrest ?_ hnd.2 hsubrest
      simp only [PValue.wf]
      exact hwf

/-- Claim C7: merging an object into a destination whose content already
equals it (shallow or deep) leaves the destination's content unchanged. -/
theorem merge_maps_idempotent (deep : Bool) (x : PObj)
    (hwf : PValue.wf (PValue.object x)) : mergeMaps x x deep = x := by
  have hs : sortedKeys x := by
    simp only [PValue.wf] at hwf
    exact hwf.1
  exact merge_submap_eq deep (sizeOf x) x x le_rfl hwf (sortedKeys_nodup x hs)
    (fun _ _ h => h)

/-- Witness for claim C7: a concrete two-level object merged into itself,
deep and shallow. -/
theorem merge_maps_idempotent_witness :
    PValue.wf (PValue.object [("a", PValue.object [("b", PValue.boolean true)])]) ∧
    mergeMaps [("a", PValue.object [("b", PValue.boolean true)])]
        [("a", PValue.object [("b", PValue.boolean true)])] true
      = [("a", PValue.object [("b", PValue.boolean true)])] := by
  have hwf : PValue.wf (PValue.object [("a", PValue.object [("b", PValue.boolean true)])]) := by
    simp [PValue.wf, sortedKeys]
  exact ⟨hwf, merge_maps_idempotent true _ hwf⟩

/-! ## Part 2: cell-level model of `merge_maps` and `MergeFn::resolve`

`SharedValue` is a reference-counted, run-time borrow-checked mutable cell
(spec §3/§4.1).  Cells are identified by addresses; a heap maps every
address to the `Value` it currently holds.  Objects map keys to cell
addresses, so aliasing (two entries holding the same cell) is representable,
and `merge_maps`' in-place mutation becomes heap threading. -/

/-- Address identifying a `SharedValue` cell. -/
abbrev Addr := Nat

/-- Modelled from the spec (§3 Data Model): a runtime `Value` in the
shared-cell model.  The `value` crate defining the Rust enum is not part of
this repository's sources; per the spec only `Object` versus "any other
value" matters to the merge core.  An object maps each key to the address
of the `SharedValue` cell holding that entry (`BTreeMap<String,
SharedValue>` in iteration order). -/
inductive Value where
  | null
  | boolean (b : Bool)
  | integer (n : Int)
  | bytes (s : String)
  | array (xs : List Value)
  | object (m : List (String × Addr))
  | timestamp (t : Int)
  | regex (r : String)

/-- An object's entry list in the cell model. -/
abbrev ObjMap := List (String × Addr)

/-- The heap: current contents of every cell. -/
abbrev Heap := Addr → Value

/-- Writing one cell. -/
def updateHeap (h : Heap) (a : Addr) (v : Value) : Heap :=
  fun x => if x = a then v else h x

/-- `BTreeMap::get` on a cell map. -/
def objGet : ObjMap → String → Option Addr
  | [], _ => none
  | (k2, a) :: rest, k => if k2 = k then some a else objGet rest k

/-- `BTreeMap::insert` on a key-sorted cell map. -/
def objInsert : ObjMap → String → Addr → ObjMap
  | [], k, a => [(k, a)]
  | (k2, a2) :: rest, k, a =>
    if k < k2 then (k, a) :: (k2, a2) :: rest
    else if k = k2 then (k, a) :: rest
    else (k2, a2) :: objInsert rest k a

def Value.isObject : Value → Bool
  | Value.object _ => true
  | _ => false

def Value.isBoolean : Value → Bool
  | Value.boolean _ => true
  | _ => false

/-- One level of `merge_maps` in the cell model: the
`for (key2, value2) in map2.iter()` loop.  `recur` is the nested
`merge_maps` call one level deeper (`mergeFuel` ties the knot).
`mutB` / `shB` list the addresses currently mutably / immutably borrowed by
the enclosing frames (`RefCell` borrows held across the call); a borrow
conflict — on which the Rust program panics — and a nested call that runs
out of fuel both yield `none`.  In the deep-merge branch the nested merge
mutates the child object in place through the `child1` cell, which the
model renders as running `recur` on the child maps and writing the merged
entry list back to the cell at `a1`; the destination map itself keeps its
entry (`continue`).  In every other case
`map1.insert(key2.clone(), value2.clone())` binds the key to the source's
cell (an alias, not a copy). -/
def mergeLoop
    (recur : Bool → List Addr → List Addr → ObjMap → ObjMap → Heap →
      Option (ObjMap × Heap))
    (deep : Bool) (mutB shB : List Addr) :
    List (String × Addr) → ObjMap → Heap → Option (ObjMap × Heap)
  | [], m1, h => some (m1, h)
  | (key2, a2) :: rest, m1, h =>
    if a2 ∈ mutB then none
    else
      match deep, objGet m1 key2, h a2 with
      | true, some a1, Value.object child2 =>
        if a1 ∈ mutB ∨ a1 ∈ shB ∨ a1 = a2 then none
        else
          match h a1 with
          | Value.object child1 =>
            match recur deep (a1 :: mutB) (a2 :: shB) child2 child1 h with
            | some (child1m, h2) =>
                mergeLoop recur deep mutB shB rest m1
                  (updateHeap h2 a1 (Value.object child1m))
            | none => none
          | _ => mergeLoop recur deep mutB shB rest (objInsert m1 key2 a2) h
      | _, _, _ => mergeLoop recur deep mutB shB rest (objInsert m1 key2 a2) h

/-- `merge_maps` in the cell model.  The recursion depth is bounded by
`fuel`, mirroring the bounded call stack of the recursive Rust function
(`none` models stack exhaustion, an abort). -/
def mergeFuel : Nat → Bool → List Addr → List Addr → ObjMap → ObjMap → Heap →
    Option (ObjMap × Heap)
  | 0 => fun _ _ _ _ _ _ => none
  | fuel + 1 => fun deep mutB shB m2 m1 h => mergeLoop (mergeFuel fuel) deep mutB shB m2 m1 h

/-- Outcomes of evaluating the merge call that do not produce a value:
`typeError` is the recoverable `TypeError` raised by `try_object` /
`try_boolean` and surfaced as an evaluation failure; `crashed` is a Rust
panic (the `.unwrap()` on a non-object `to`, a `RefCell` borrow conflict,
or call-stack exhaustion), which is not a recoverable evaluation error. -/
inductive EvalError where
  | typeError
  | crashed
  deriving DecidableEq

/-- `MergeFn::resolve`, after its three operand sub-expressions have been
resolved: `to` and `from` resolve to cells (addresses), `deep` to a value.
The code mutably borrows the `to` cell and reads it as an object with
`.as_object_mut().unwrap()` — panicking when it is not an object — then
borrows the `from` cell (a borrow conflict, hence a panic, when it is the
same cell as `to`), type-checks it with `try_object`, type-checks `deep`
with `try_boolean`, runs `merge_maps`, and returns the (mutated) `to` cell.
The result pairs the call's outcome with the final heap; the error paths
return before `merge_maps` runs, so they leave the heap unchanged. -/
def resolveMerge (fuel : Nat) (h : Heap) (toA fromA : Addr) (deepV : Value) :
    Except EvalError Addr × Heap :=
  match h toA with
  | Value.object destM =>
    if fromA = toA then (Except.error EvalError.crashed, h)
    else
      match h fromA with
      | Value.object srcM =>
        match deepV with
        | Value.boolean deep =>
          match mergeFuel fuel deep [toA] [fromA] srcM destM h with
          | some (destM2, h2) => (Except.ok toA, updateHeap h2 toA (Value.object destM2))
          | none => (Except.error EvalError.crashed, h)
        | _ => (Except.error EvalError.typeError, h)
      | _ => (Except.error EvalError.typeError, h)
  | _ => (Except.error EvalError.crashed, h)

/-- Heap for the claim C2 counterexample: cell 0 holds a byte-string, cell 1
an empty object. -/
def c2Heap : Heap := fun a => if a = 1 then Value.object [] else Value.bytes "s"

/-- Counterexample to claim C2 as stated: with `to` resolving to a cell that
holds a (non-object) byte-string and `from` to an object, `MergeFn::resolve`
does not produce the recoverable `TypeError` the claim describes — the
destination is read with `.as_object_mut().unwrap()`, so the call panics. -/
theorem resolve_nonobject_to_cex :
    c2Heap 0 = Value.bytes "s" ∧ (c2Heap 1).isObject = true ∧
    (resolveMerge 8 c2Heap 0 1 (Value.boolean false)).1 = Except.error EvalError.crashed ∧
    (resolveMerge 8 c2Heap 0 1 (Value.boolean false)).1 ≠ Except.error EvalError.typeError := by
  refine ⟨rfl, rfl, rfl, ?_⟩
  intro hc
  rw [show (resolveMerge 8 c2Heap 0 1 (Value.boolean false)).1
      = Except.error EvalError.crashed from rfl] at hc
  exact EvalError.noConfusion (Except.error.inj hc)

/-- Claim C2 amended: when the `to` argument resolves to a cell holding a
non-Object value, the merge call crashes (a Rust panic via `.unwrap()`)
rather than failing with a recoverable `TypeError`; the heap is unchanged.
(Non-object `from` and non-boolean `deep` do yield `TypeError`, see the
claim C8 theorem.) -/
theorem resolve_nonobject_to_crashes (fuel : Nat) (h : Heap) (toA fromA : Addr)
    (deepV : Value) (hto : (h toA).isObject = false) :
    resolveMerge fuel h toA fromA deepV = (Except.error EvalError.crashed, h) := by
  cases hv : h toA <;> rw [hv] at hto <;>
    simp [resolveMerge, hv, Value.isObject] at hto ⊢

/-- Witness for the amended claim C2 theorem at a concrete input. -/
theorem resolve_nonobject_to_crashes_witness :
    (c2Heap 0).isObject = false ∧
    resolveMerge 8 c2Heap 0 1 (Value.boolean false) = (Except.error EvalError.crashed, c2Heap) :=
  ⟨rfl, resolve_nonobject_to_crashes 8 c2Heap 0 1 (Value.boolean false) rfl⟩

/-- Heap for the claim C8 counterexample: cell 0 holds an object, cell 1 an
integer. -/
def c8Heap : Heap := fun a => if a = 0 then Value.object [("a", 1)] else Value.integer 3

/-- Counterexample to claim C8 as stated: `to` resolves to an Object and the
`deep` argument resolves to a non-Boolean (an integer), so by the claim the
call should return the `TypeError`; but because `from` resolves to the very
cell `to` resolved to, the `from_value.borrow()` conflicts with the
outstanding mutable borrow of `to` and the program panics before any
argument type check runs. -/
theorem resolve_arg_error_aliased_cex :
    (c8Heap 0).isObject = true ∧
    (Value.integer 7).isBoolean = false ∧
    (resolveMerge 8 c8Heap 0 0 (Value.integer 7)).1 = Except.error EvalError.crashed ∧
    (resolveMerge 8 c8Heap 0 0 (Value.integer 7)).1 ≠ Except.error EvalError.typeError := by
  refine ⟨rfl, rfl, rfl, ?_⟩
  intro hc
  rw [show (resolveMerge 8 c8Heap 0 0 (Value.integer 7)).1
      = Except.error EvalError.crashed from rfl] at hc
  exact EvalError.noConfusion (Except.error.inj hc)

/-- Claim C8 amended: when `to` has resolved to an Object held in a cell
distinct from `from`'s cell (so the two borrows do not conflict), and the
`from` argument resolves to a non-Object value or the `deep` argument
resolves to a non-Boolean value, the call returns the recoverable
`TypeError` and the heap — in particular the destination object — is
completely unmodified, because `merge_maps` only runs after every argument
check has succeeded. -/
theorem resolve_arg_errors_leave_dest (fuel : Nat) (h : Heap) (toA fromA : Addr)
    (deepV : Value) (hto : (h toA).isObject = true) (hne : fromA ≠ toA)
    (hbad : (h fromA).isObject = false ∨ deepV.isBoolean = false) :
    resolveMerge fuel h toA fromA deepV = (Except.error EvalError.typeError, h) := by
  cases hv : h toA <;> rw [hv] at hto <;>
    simp only [Value.isObject] at hto <;> try exact Bool.noConfusion hto
  rename_i destM
  cases hv2 : h fromA with
  | object srcM =>
    rw [hv2] at hbad
    rcases hbad with hbad | hbad
    · simp [Value.isObject] at hbad
    · cases deepV <;> simp only [Value.isBoolean] at hbad <;>
        first
        | exact Bool.noConfusion hbad
        | simp [resolveMerge, hv, hv2, hne]
  | null => simp [resolveMerge, hv, hv2, hne]
  | boolean b => simp [resolveMerge, hv, hv2, hne]
  | integer n => simp [resolveMerge, hv, hv2, hne]
  | bytes s => simp [resolveMerge, hv, hv2, hne]
  | array xs => simp [resolveMerge, hv, hv2, hne]
  | timestamp t => simp [resolveMerge, hv, hv2, hne]
  | regex r => simp [resolveMerge, hv, hv2, hne]

/-- Witness for the amended claim C8 theorem at a concrete input: a
non-object `from`, distinct cells for `to` and `from`. -/
theorem resolve_arg_errors_leave_dest_witness :
    ((c8Heap 0).isObject = true ∧ (1 : Addr) ≠ (0 : Addr)
      ∧ ((c8Heap 1).isObject = false ∨ (Value.boolean true).isBoolean = false)) ∧
    resolveMerge 8 c8Heap 0 1 (Value.boolean true) = (Except.error EvalError.typeError, c8Heap) :=
  ⟨⟨rfl, by decide, Or.inl rfl⟩,
   resolve_arg_errors_leave_dest 8 c8Heap 0 1 (Value.boolean true) rfl (by decide) (Or.inl rfl)⟩

/-! ### Snapshots

A snapshot records the full tree of values and cell addresses reachable
from an object through its entries; `StoresAt`/`StoresAllE` pin the
contents of every reachable cell in a given heap.  Snapshots are the device
used to state which cells a merge may write and which it must preserve. -/

/-- A snapshot of one cell's contents: either a non-object value, or an
object entry list where each entry carries its key, the address of the cell
it holds, and a snapshot of that cell. -/
inductive Snap where
  | prim (v : Value)
  | obj (es : List (String × Addr × Snap))

/-- The object entry list described by an entry-snapshot list. -/
def entriesMap (es : List (String × Addr × Snap)) : ObjMap :=
  es.map (fun e => (e.1, e.2.1))

/-- The keys of an entry-snapshot list. -/
def keysE (es : List (String × Addr × Snap)) : List String :=
  es.map (fun e => e.1)

mutual
/-- All cell addresses reachable from a snapshotted cell's contents. -/
def snapAddrs : Snap → List Addr
  | Snap.prim _ => []
  | Snap.obj es => addrsE es
/-- All cell addresses of an entry-snapshot list: each entry's own cell and
everything reachable from it. -/
def addrsE : List (String × Addr × Snap) → List Addr
  | [] => []
  | (_, a, t) :: rest => (a :: snapAddrs t) ++ addrsE rest
end

mutual
/-- Nesting depth of object pairs in a snapshot. -/
def snapDepth : Snap → Nat
  | Snap.prim _ => 0
  | Snap.obj es => 1 + depthE es
def depthE : List (String × Addr × Snap) → Nat
  | [] => 0
  | (_, _, t) :: rest => max (snapDepth t) (depthE rest)
end

mutual
/-- The cell at `a` (and everything reachable from it) holds exactly the
snapshotted contents in heap `h`. -/
def StoresAt (h : Heap) : Addr → Snap → Prop
  | a, Snap.prim v => h a = v ∧ v.isObject = false
  | a, Snap.obj es => h a = Value.object (entriesMap es) ∧ StoresAllE h es
/-- Every entry of the list stores its snapshot in heap `h`. -/
def StoresAllE (h : Heap) : List (String × Addr × Snap) → Prop
  | [] => True
  | (_, a, t) :: rest => StoresAt h a t ∧ StoresAllE h rest
end

/-- Heap for the claim C9 counterexample. -/
def c9Heap : Heap := fun a =>
  if a = 0 then Value.object []
  else if a = 1 then Value.object [("p", 3)]
  else if a = 2 then Value.object [("p", 4)]
  else if a = 3 then Value.object []
  else if a = 4 then Value.object [("z", 5)]
  else if a = 5 then Value.integer 1
  else Value.null

/-- Destination of the C9 counterexample: both keys hold the same cell 0
(aliasing within the destination, which the cell model permits). -/
def c9Dest : ObjMap := [("a", 0), ("b", 0)]

def c9Src : ObjMap := [("a", 1), ("b", 2)]

def c9DestSnap : List (String × Addr × Snap) :=
  [("a", 0, Snap.obj []), ("b", 0, Snap.obj [])]

def c9SrcSnap : List (String × Addr × Snap) :=
  [("a", 1, Snap.obj [("p", 3, Snap.obj [])]),
   ("b", 2, Snap.obj [("p", 4, Snap.obj [("z", 5, Snap.prim (Value.integer 1))])])]

/-- Counterexample to claim C9 as stated: destination and source objects
share no value cells (their reachable address sets are disjoint) and both
sides are well-formed sorted objects, yet the deep merge rewrites cell 3 —
a cell reachable from the *source* — from the empty object to
`{z: cell 5}`.  The destination aliases cell 0 under both of its keys; the
first loop iteration inserts source cell 3 into cell 0's object, and the
second iteration then deep-merges into it through the destination's other
alias of cell 0. -/
theorem merge_maps_source_mutated_cex :
    StoresAllE c9Heap c9DestSnap ∧ StoresAllE c9Heap c9SrcSnap ∧
    entriesMap c9DestSnap = c9Dest ∧ entriesMap c9SrcSnap = c9Src ∧
    List.Pairwise (fun p q => p.1 < q.1) c9Dest ∧
    List.Pairwise (fun p q => p.1 < q.1) c9Src ∧
    List.Disjoint (addrsE c9DestSnap) (addrsE c9SrcSnap) ∧
    (3 : Addr) ∈ addrsE c9SrcSnap ∧ c9Heap 3 = Value.object [] ∧
    (mergeFuel 10 true [] [] c9Src c9Dest c9Heap).map (fun r => r.2 3)
      = some (Value.object [("z", 5)]) ∧
    Value.object [("z", 5)] ≠ Value.object [] := by
  refine ⟨?_, ?_, rfl, rfl, ?_, ?_, ?_, ?_, rfl, rfl, ?_⟩
  · simp [StoresAllE, StoresAt, entriesMap, c9Heap]
  · simp [StoresAllE, StoresAt, entriesMap, c9Heap, Value.isObject]
  · simp [c9Dest]
    decide
  · simp [c9Src]
    decide
  · simp [c9DestSnap, c9SrcSnap, addrsE, snapAddrs, List.Disjoint]
  · simp [c9SrcSnap, addrsE, snapAddrs]
  · simp

/-- Heap for the claim C10 counterexample. -/
def c10Heap : Heap := fun a =>
  if a = 0 then Value.object []
  else if a = 1 then Value.object [("x", 2)]
  else Value.integer 1

/-- Destination of the C10 counterexample: keys `a` and `b` alias cell 0. -/
def c10Dest : ObjMap := [("a", 0), ("b", 0)]

def c10Src : ObjMap := [("a", 1)]

/-- Counterexample to claim C10 as stated: key `b` is present in the
destination and absent from the source, and after the deep merge the
destination still binds `b` to cell 0 — but that cell's contained value has
changed (from the empty object to `{x: cell 2}`), because the destination
also aliases cell 0 under key `a`, which the source does contain. -/
theorem merge_maps_absent_key_value_changed_cex :
    objGet c10Dest "b" = some 0 ∧ objGet c10Src "b" = none ∧
    List.Pairwise (fun p q => p.1 < q.1) c10Dest ∧
    c10Heap 0 = Value.object [] ∧
    (mergeFuel 10 true [] [] c10Src c10Dest c10Heap).map (fun r => (objGet r.1 "b", r.2 0))
      = some (some 0, Value.object [("x", 2)]) ∧
    Value.object [("x", 2)] ≠ Value.object [] := by
  refine ⟨rfl, rfl, ?_, rfl, rfl, ?_⟩
  · simp [c10Dest]
    decide
  · simp

mutual
/-- Keys are nodup in every object of the snapshot (the `BTreeMap`
invariant, key-uniqueness part). -/
def snapWF : Snap → Prop
  | Snap.prim _ => True
  | Snap.obj es => (keysE es).Nodup ∧ entriesWF es
def entriesWF : List (String × Addr × Snap) → Prop
  | [] => True
  | (_, _, t) :: rest => snapWF t ∧ entriesWF rest
end

/-- `BTreeMap::get` joined with the snapshot of the entry's cell. -/
def lookupE : List (String × Addr × Snap) → String → Option (Addr × Snap)
  | [], _ => none
  | (k2, a, t) :: rest, k => if k2 = k then some (a, t) else lookupE rest k

theorem objGet_objInsert_ne (m : ObjMap) (k k' : String) (a : Addr) (h : k' ≠ k) :
    objGet (objInsert m k a) k' = objGet m k' := by
  have hkk : k ≠ k' := Ne.symm h
  induction m with
  | nil => simp [objInsert, objGet, hkk]
  | cons p rest ih =>
    obtain ⟨k2, a2⟩ := p
    by_cases h1 : k < k2
    · simp [objInsert, objGet, h1, hkk]
    · by_cases h2 : k = k2
      · subst h2
        simp [objInsert, objGet, h1, hkk]
      · simp [objInsert, objGet, h1, h2, ih]

theorem objGet_entriesMap (es : List (String × Addr × Snap)) (k : String) :
    objGet (entriesMap es) k = Option.map Prod.fst (lookupE es k) := by
  induction es with
  | nil => simp [entriesMap, objGet, lookupE]
  | cons e rest ih =>
    obtain ⟨k2, a, t⟩ := e
    by_cases h : k2 = k
    · simp [entriesMap, objGet, lookupE, h]
    · simp only [entriesMap, List.map_cons, objGet, lookupE, if_neg h]
      simpa [entriesMap] using ih

theorem lookupE_mem (es : List (String × Addr × Snap)) (k : String) (a : Addr) (t : Snap)
    (h : lookupE es k = some (a, t)) : (k, a, t) ∈ es := by
  induction es with
  | nil => simp [lookupE] at h
  | cons e rest ih =>
    obtain ⟨k2, a2, t2⟩ := e
    by_cases he : k2 = k
    · subst he
      rw [lookupE, if_pos rfl] at h
      have h1 : a2 = a := congrArg Prod.fst (Option.some.inj h)
      have h2 : t2 = t := congrArg Prod.snd (Option.some.inj h)
      subst h1
      subst h2
      exact List.mem_cons_self _ _
    · rw [lookupE, if_neg he] at h
      exact List.mem_cons_of_mem _ (ih h)

theorem lookupE_of_mem_nodup (es : List (String × Addr × Snap)) (k : String) (a : Addr)
    (t : Snap) (hnd : (keysE es).Nodup) (hmem : (k, a, t) ∈ es) :
    lookupE es k = some (a, t) := by
  induction es with
  | nil => simp at hmem
  | cons e rest ih =>
    obtain ⟨k2, a2, t2⟩ := e
    simp only [keysE, List.map_cons, List.nodup_cons] at hnd
    rcases List.mem_cons.mp hmem with h1 | h1
    · have h2 : k = k2 := congrArg Prod.fst h1
      subst h2
      rw [lookupE, if_pos rfl]
      rw [show a2 = a from (congrArg (fun p => p.2.1) h1).symm,
        show t2 = t from (congrArg (fun p => p.2.2) h1).symm]
    · have hne : k2 ≠ k := by
        intro he
        subst he
        exact hnd.1 (by
          have : k2 ∈ keysE rest := List.mem_map_of_mem (fun e => e.1) h1
          simpa [keysE] using this)
      rw [lookupE, if_neg hne]
      exact ih hnd.2 h1

theorem storesAllE_mem (h : Heap) (es : List (String × Addr × Snap)) (k : String)
    (a : Addr) (t : Snap) (hall : StoresAllE h es) (hmem : (k, a, t) ∈ es) :
    StoresAt h a t := by
  induction es with
  | nil => simp at hmem
  | cons e rest ih =>
    obtain ⟨k2, a2, t2⟩ := e
    rw [StoresAllE] at hall
    rcases List.mem_cons.mp hmem with h1 | h1
    · rw [show a = a2 from congrArg (fun p => p.2.1) h1,
        show t = t2 from congrArg (fun p => p.2.2) h1]
      exact hall.1
    · exact ih hall.2 h1

theorem cone_sublist (es : List (String × Addr × Snap)) (k : String) (a : Addr) (t : Snap)
    (hmem : (k, a, t) ∈ es) : (a :: snapAddrs t).Sublist (addrsE es) := by
  induction es with
  | nil => simp at hmem
  | cons e rest ih =>
    obtain ⟨k2, a2, t2⟩ := e
    rw [addrsE]
    rcases List.mem_cons.mp hmem with h1 | h1
    · rw [show a = a2 from congrArg (fun p => p.2.1) h1,
        show t = t2 from congrArg (fun p => p.2.2) h1]
      exact List.sublist_append_left _ _
    · exact (ih h1).trans (List.sublist_append_right _ _)

theorem mem_addrsE_of_cone (es : List (String × Addr × Snap)) (k : String) (a : Addr)
    (t : Snap) (x : Addr) (hmem : (k, a, t) ∈ es) (hx : x ∈ a :: snapAddrs t) :
    x ∈ addrsE es :=
  (cone_sublist es k a t hmem).subset hx

/-- Heap agreement on a snapshot's cone preserves `StoresAt`, jointly with
the entry-list version. -/
theorem storesAt_stable_all (n : Nat) :
    (∀ (t : Snap) (a : Addr) (h h2 : Heap), sizeOf t ≤ n →
      (∀ x ∈ a :: snapAddrs t, h2 x = h x) → StoresAt h a t → StoresAt h2 a t) ∧
    (∀ (es : List (String × Addr × Snap)) (h h2 : Heap), sizeOf es ≤ n →
      (∀ x ∈ addrsE es, h2 x = h x) → StoresAllE h es → StoresAllE h2 es) := by
  induction n using Nat.strong_induction_on with
  | _ n ih =>
    constructor
    · intro t a h h2 hsz hag hst
      cases t with
      | prim v =>
        rw [StoresAt] at hst ⊢
        rw [hag a (List.mem_cons_self _ _), hst.1]
        exact ⟨rfl, hst.2⟩
      | obj es =>
        rw [StoresAt] at hst ⊢
        refine ⟨by rw [hag a (List.mem_cons_self _ _), hst.1], ?_⟩
        have hszes : sizeOf es < n := by
          simp only [Snap.obj.sizeOf_spec] at hsz
          omega
        exact (ih (sizeOf es) hszes).2 es h h2 le_rfl
          (fun x hx => hag x (List.mem_cons_of_mem _ (by rw [snapAddrs]; exact hx)))
          hst.2
    · intro es h h2 hsz hag hall
      induction es with
      | nil => rw [StoresAllE]; trivial
      | cons e rest ih2 =>
        obtain ⟨k2, a2, t2⟩ := e
        rw [StoresAllE] at hall ⊢
        have hsz2 : sizeOf t2 < n := by
          simp only [List.cons.sizeOf_spec, Prod.mk.sizeOf_spec] at hsz
          omega
        have hszrest : sizeOf rest ≤ n := by
          simp only [List.cons.sizeOf_spec, Prod.mk.sizeOf_spec] at hsz
          omega
        refine ⟨(ih (sizeOf t2) hsz2).1 t2 a2 h h2 le_rfl ?_ hall.1, ?_⟩
        · intro x hx
          exact hag x (by rw [addrsE]; exact List.mem_append_left _ hx)
        · refine ih2 ?_ ?_ hall.2
          · simp only [List.cons.sizeOf_spec, Prod.mk.sizeOf_spec] at hsz
            omega
          · intro x hx
            exact hag x (by rw [addrsE]; exact List.mem_append_right _ hx)

theorem storesAt_stable (t : Snap) (a : Addr) (h h2 : Heap)
    (hag : ∀ x ∈ a :: snapAddrs t, h2 x = h x) (hst : StoresAt h a t) :
    StoresAt h2 a t :=
  (storesAt_stable_all (sizeOf t)).1 t a h h2 le_rfl hag hst

theorem storesAllE_stable (es : List (String × Addr × Snap)) (h h2 : Heap)
    (hag : ∀ x ∈ addrsE es, h2 x = h x) (hall : StoresAllE h es) :
    StoresAllE h2 es :=
  (storesAt_stable_all (sizeOf es)).2 es h h2 le_rfl hag hall

/-- A heap determines the snapshot of a cell uniquely, jointly with the
entry-list version. -/
theorem storesAt_unique_all (n : Nat) :
    (∀ (t1 t2 : Snap) (a : Addr) (h : Heap), sizeOf t1 ≤ n →
      StoresAt h a t1 → StoresAt h a t2 → t1 = t2) ∧
    (∀ (es1 es2 : List (String × Addr × Snap)) (h : Heap), sizeOf es1 ≤ n →
      entriesMap es1 = entriesMap es2 → StoresAllE h es1 → StoresAllE h es2 →
      es1 = es2) := by
  induction n using Nat.strong_induction_on with
  | _ n ih =>
    constructor
    · intro t1 t2 a h hsz h1 h2
      cases t1 with
      | prim v =>
        cases t2 with
        | prim w =>
          rw [StoresAt] at h1 h2
          rw [show v = w from h1.1.symm.trans h2.1]
        | obj es2 =>
          simp only [StoresAt] at h1 h2
          exfalso
          have hv : v = Value.object (entriesMap es2) := h1.1.symm.trans h2.1
          rw [hv, Value.isObject] at h1
          exact Bool.noConfusion h1.2
      | obj es1 =>
        cases t2 with
        | prim w =>
          simp only [StoresAt] at h1 h2
          exfalso
          have hv : w = Value.object (entriesMap es1) := h2.1.symm.trans h1.1
          rw [hv, Value.isObject] at h2
          exact Bool.noConfusion h2.2
        | obj es2 =>
          simp only [StoresAt] at h1 h2
          have hmm : entriesMap es1 = entriesMap es2 :=
            Value.object.inj (h1.1.symm.trans h2.1)
          have hszes : sizeOf es1 < n := by
            simp only [Snap.obj.sizeOf_spec] at hsz
            omega
          rw [(ih (sizeOf es1) hszes).2 es1 es2 h le_rfl hmm h1.2 h2.2]
    · intro es1 es2 h hsz hmm h1 h2
      induction es1 generalizing es2 with
      | nil =>
        cases es2 with
        | nil => rfl
        | cons e rest =>
          exfalso
          simp [entriesMap] at hmm
      | cons e rest ih2 =>
        cases es2 with
        | nil =>
          exfalso
          simp [entriesMap] at hmm
        | cons e2 rest2 =>
          obtain ⟨k, a, t⟩ := e
          obtain ⟨k2, a2, t2⟩ := e2
          simp only [entriesMap, List.map_cons, List.cons.injEq, Prod.mk.injEq] at hmm
          obtain ⟨⟨hk, ha⟩, hrest⟩ := hmm
          subst hk
          subst ha
          rw [StoresAllE] at h1 h2
          have hszt : sizeOf t < n := by
            simp only [List.cons.sizeOf_spec, Prod.mk.sizeOf_spec] at hsz
            omega
          have ht : t = t2 := (ih (sizeOf t) hszt).1 t t2 a h le_rfl h1.1 h2.1
          subst ht
          have hszrest : sizeOf rest ≤ n := by
            simp only [List.cons.sizeOf_spec, Prod.mk.sizeOf_spec] at hsz
            omega
          have hr2 : rest = rest2 := ih2 rest2 hszrest hrest h1.2 h2.2
          rw [hr2]

theorem storesAt_unique (t1 t2 : Snap) (a : Addr) (h : Heap)
    (h1 : StoresAt h a t1) (h2 : StoresAt h a t2) : t1 = t2 :=
  (storesAt_unique_all (sizeOf t1)).1 t1 t2 a h le_rfl h1 h2

theorem lookup_cones_disjoint (es : List (String × Addr × Snap)) (k k' : String)
    (a a' : Addr) (t t' : Snap) (hnd : (addrsE es).Nodup) (hne : k ≠ k')
    (h1 : lookupE es k = some (a, t)) (h2 : lookupE es k' = some (a', t')) :
    List.Disjoint (a :: snapAddrs t) (a' :: snapAddrs t') := by
  induction es with
  | nil => simp [lookupE] at h1
  | cons e rest ih =>
    obtain ⟨k0, a0, t0⟩ := e
    rw [addrsE] at hnd
    have hdisj := (List.nodup_append.mp hnd).2.2
    by_cases he1 : k0 = k
    · subst he1
      rw [lookupE, if_pos rfl] at h1
      have ha : a0 = a := congrArg Prod.fst (Option.some.inj h1)
      have ht : t0 = t := congrArg Prod.snd (Option.some.inj h1)
      subst ha
      subst ht
      rw [lookupE, if_neg hne] at h2
      intro x hx1 hx2
      exact hdisj hx1 (mem_addrsE_of_cone rest k' a' t' x (lookupE_mem rest k' a' t' h2) hx2)
    · rw [lookupE, if_neg he1] at h1
      by_cases he2 : k0 = k'
      · subst he2
        rw [lookupE, if_pos rfl] at h2
        have ha : a0 = a' := congrArg Prod.fst (Option.some.inj h2)
        have ht : t0 = t' := congrArg Prod.snd (Option.some.inj h2)
        subst ha
        subst ht
        intro x hx1 hx2
        exact hdisj hx2 (mem_addrsE_of_cone rest k a t x (lookupE_mem rest k a t h1) hx1)
      · rw [lookupE, if_neg he2] at h2
        exact ih (List.nodup_append.mp hnd).2.1 h1 h2

/-- Facts about a destination entry's cone (the entry's cell together with
everything reachable from it): pairwise-distinct cells, and no overlap with
the source's cells (`srcA`) or the outstanding borrows (`mutB`, `shB`). -/
def ConeFacts (srcA mutB shB : List Addr) (a1 : Addr) (t1 : Snap) : Prop :=
  (a1 :: snapAddrs t1).Nodup ∧
  ∀ x ∈ a1 :: snapAddrs t1, x ∉ srcA ∧ x ∉ mutB ∧ x ∉ shB

/-- Every destination entry at a key of the source has a snapshot whose
cone satisfies `ConeFacts`. -/
def DestOK (h : Heap) (m1 : ObjMap) (es2 : List (String × Addr × Snap))
    (mutB shB : List Addr) : Prop :=
  ∀ k ∈ keysE es2, ∀ a1, objGet m1 k = some a1 →
    (∃ t1, StoresAt h a1 t1) ∧
    ∀ t1, StoresAt h a1 t1 → ConeFacts (addrsE es2) mutB shB a1 t1

/-- Destination cones at distinct source keys are disjoint. -/
def DestPairwise (h : Heap) (m1 : ObjMap) (es2 : List (String × Addr × Snap)) : Prop :=
  ∀ k1 k2, k1 ∈ keysE es2 → k2 ∈ keysE es2 → k1 ≠ k2 →
    ∀ a1 b1 t1 u1, objGet m1 k1 = some a1 → objGet m1 k2 = some b1 →
      StoresAt h a1 t1 → StoresAt h b1 u1 →
      List.Disjoint (a1 :: snapAddrs t1) (b1 :: snapAddrs u1)

/-- The merge wrote only inside the destination cones at the source's
keys: every other cell still holds its old value. -/
def Confined (h : Heap) (m1 : ObjMap) (es2 : List (String × Addr × Snap))
    (h2 : Heap) : Prop :=
  ∀ a, (∀ k ∈ keysE es2, ∀ a1 t1, objGet m1 k = some a1 → StoresAt h a1 t1 →
      a ∉ a1 :: snapAddrs t1) → h2 a = h a

/-- The merge completed (no panic, no stack exhaustion), wrote only inside
the destination cones at the source's keys, and kept the destination's
entries at all other keys. -/
def MergeOK (h : Heap) (m1 : ObjMap) (es2 : List (String × Addr × Snap))
    (r : Option (ObjMap × Heap)) : Prop :=
  ∃ mr hr, r = some (mr, hr) ∧ Confined h m1 es2 hr ∧
    (∀ k, k ∉ keysE es2 → objGet mr k = objGet m1 k)

theorem coneFacts_mono (srcA srcA2 mutB shB : List Addr) (a1 : Addr) (t1 : Snap)
    (hsub : ∀ x ∈ srcA2, x ∈ srcA) (hc : ConeFacts srcA mutB shB a1 t1) :
    ConeFacts srcA2 mutB shB a1 t1 := by
  refine ⟨hc.1, ?_⟩
  intro x hx
  obtain ⟨h1, h2, h3⟩ := hc.2 x hx
  exact ⟨fun hmem => h1 (hsub x hmem), h2, h3⟩

theorem snapshot_of_objGet (h : Heap) (es1 : List (String × Addr × Snap)) (k : String)
    (b : Addr) (hall : StoresAllE h es1) (hbget : objGet (entriesMap es1) k = some b) :
    ∃ tb, lookupE es1 k = some (b, tb) ∧ (k, b, tb) ∈ es1 ∧ StoresAt h b tb ∧
      ∀ x ∈ b :: snapAddrs tb, x ∈ addrsE es1 := by
  rw [objGet_entriesMap] at hbget
  cases hlk : lookupE es1 k with
  | none =>
    rw [hlk] at hbget
    exact Option.noConfusion hbget
  | some p =>
    obtain ⟨b2, tb⟩ := p
    rw [hlk] at hbget
    have hb : b2 = b := Option.some.inj hbget
    subst hb
    have hmem := lookupE_mem es1 k b2 tb hlk
    exact ⟨tb, rfl, hmem, storesAllE_mem h es1 k b2 tb hall hmem,
      fun x hx => mem_addrsE_of_cone es1 k b2 tb x hmem hx⟩

/-- The loop-level invariant of `merge_maps` in the cell model: when the
destination cones at the source's keys have pairwise-distinct cells,
disjoint from the source's cells and from the outstanding borrows, one
level of the loop completes, writes only inside those cones, and keeps the
destination's entries at every other key.  `Hrec` supplies the same
invariant for the nested merge one level deeper. -/
theorem mergeLoop_confined
    (recur : Bool → List Addr → List Addr → ObjMap → ObjMap → Heap →
      Option (ObjMap × Heap))
    (B : Nat)
    (Hrec : ∀ (es2 : List (String × Addr × Snap)) (deep : Bool) (mutB shB : List Addr)
      (m1 : ObjMap) (h : Heap), depthE es2 < B →
      StoresAllE h es2 → (keysE es2).Nodup → entriesWF es2 →
      (∀ x ∈ addrsE es2, x ∉ mutB) → DestOK h m1 es2 mutB shB → DestPairwise h m1 es2 →
      MergeOK h m1 es2 (recur deep mutB shB (entriesMap es2) m1 h)) :
    ∀ (es2 : List (String × Addr × Snap)) (deep : Bool) (mutB shB : List Addr)
      (m1 : ObjMap) (h : Heap), depthE es2 ≤ B →
      StoresAllE h es2 → (keysE es2).Nodup → entriesWF es2 →
      (∀ x ∈ addrsE es2, x ∉ mutB) → DestOK h m1 es2 mutB shB → DestPairwise h m1 es2 →
      MergeOK h m1 es2 (mergeLoop recur deep mutB shB (entriesMap es2) m1 h) := by
  intro es2
  induction es2 with
  | nil =>
    intro deep mutB shB m1 h _ _ _ _ _ _ _
    exact ⟨m1, h, by simp [entriesMap, mergeLoop], fun a _ => rfl, fun k _ => rfl⟩
  | cons e rest ih =>
    obtain ⟨k, a2, t2⟩ := e
    intro deep mutB shB m1 h hdep hst hnd hwf hmut hdok hdpw
    have hkhead : k ∈ keysE ((k, a2, t2) :: rest) := by
      simp [keysE]
    have hresttail : ∀ k2, k2 ∈ keysE rest → k2 ∈ keysE ((k, a2, t2) :: rest) := by
      intro k2 hk2
      simp only [keysE, List.map_cons, List.mem_cons]
      right
      simpa [keysE] using hk2
    have haddrrest : ∀ x, x ∈ addrsE rest → x ∈ addrsE ((k, a2, t2) :: rest) := by
      intro x hx
      rw [addrsE]
      exact List.mem_append_right _ hx
    simp only [StoresAllE] at hst
    simp only [entriesWF] at hwf
    have hndk : k ∉ keysE rest := by
      have h1 := hnd
      simp only [keysE, List.map_cons, List.nodup_cons] at h1
      intro hcon
      exact h1.1 (by simpa [keysE] using hcon)
    have hndrest : (keysE rest).Nodup := by
      have h1 := hnd
      simp only [keysE, List.map_cons, List.nodup_cons] at h1
      simpa [keysE] using h1.2
    have ha2src : a2 ∈ addrsE ((k, a2, t2) :: rest) := by
      rw [addrsE]
      exact List.mem_append_left _ (List.mem_cons_self _ _)
    have ha2mut : a2 ∉ mutB := hmut a2 ha2src
    have hdeprest : depthE rest ≤ B :=
      le_trans (by rw [depthE]; exact le_max_right _ _) hdep
    have hins : MergeOK h m1 ((k, a2, t2) :: rest)
        (mergeLoop recur deep mutB shB (entriesMap rest) (objInsert m1 k a2) h) := by
      have hdok2 : DestOK h (objInsert m1 k a2) rest mutB shB := by
        intro k2 hk2 b hbget
        have hne : k2 ≠ k := fun hcon => hndk (hcon ▸ hk2)
        rw [objGet_objInsert_ne m1 k k2 a2 hne] at hbget
        obtain ⟨hex, hfor⟩ := hdok k2 (hresttail k2 hk2) b hbget
        refine ⟨hex, ?_⟩
        intro t1 hst1
        exact coneFacts_mono _ _ _ _ _ _ haddrrest (hfor t1 hst1)
      have hdpw2 : DestPairwise h (objInsert m1 k a2) rest := by
        intro k1 k2 hk1 hk2 hne12 b c u w hbg hcg hbu hcw
        have hne1 : k1 ≠ k := fun hcon => hndk (hcon ▸ hk1)
        have hne2 : k2 ≠ k := fun hcon => hndk (hcon ▸ hk2)
        rw [objGet_objInsert_ne m1 k k1 a2 hne1] at hbg
        rw [objGet_objInsert_ne m1 k k2 a2 hne2] at hcg
        exact hdpw k1 k2 (hresttail k1 hk1) (hresttail k2 hk2) hne12 b c u w hbg hcg
          hbu hcw
      obtain ⟨mr, hr, hreq, hrconf, hrmap⟩ :=
        ih deep mutB shB (objInsert m1 k a2) h hdeprest hst.2 hndrest hwf.2
          (fun x hx => hmut x (haddrrest x hx)) hdok2 hdpw2
      refine ⟨mr, hr, hreq, ?_, ?_⟩
      · intro a hprem
        refine hrconf a ?_
        intro k2 hk2 b u hbg hbu
        have hne : k2 ≠ k := fun hcon => hndk (hcon ▸ hk2)
        rw [objGet_objInsert_ne m1 k k2 a2 hne] at hbg
        exact hprem k2 (hresttail k2 hk2) b u hbg hbu
      · intro k2 hk2
        have hk2rest : k2 ∉ keysE rest := fun hcon => hk2 (hresttail k2 hcon)
        have hk2ne : k2 ≠ k := fun hcon => hk2 (hcon ▸ hkhead)
        rw [hrmap k2 hk2rest, objGet_objInsert_ne m1 k k2 a2 hk2ne]
    rw [show entriesMap ((k, a2, t2) :: rest) = (k, a2) :: entriesMap rest from rfl]
    simp only [mergeLoop]
    rw [if_neg ha2mut]
    split
    · -- the deep-merge branch: deep = true, an existing entry, source object
      rename_i a1 child2 hget hha2
      cases t2 with
      | prim v =>
        exfalso
        have hparts : h a2 = v ∧ v.isObject = false := by
          simpa [StoresAt] using hst.1
        have hv : v = Value.object child2 := hparts.1.symm.trans hha2
        rw [hv, Value.isObject] at hparts
        exact Bool.noConfusion hparts.2
      | obj ces =>
        have hstA2parts : h a2 = Value.object (entriesMap ces) ∧ StoresAllE h ces := by
          simpa [StoresAt] using hst.1
        have hchild2 : child2 = entriesMap ces :=
          Value.object.inj (hha2.symm.trans hstA2parts.1)
        subst hchild2
        obtain ⟨⟨t1, hstA1⟩, hconeAll⟩ := hdok k hkhead a1 hget
        have hconeA1 := hconeAll t1 hstA1
        obtain ⟨ha1src, ha1mut, ha1sh⟩ := hconeA1.2 a1 (List.mem_cons_self _ _)
        have hnoborrow : ¬(a1 ∈ mutB ∨ a1 ∈ shB ∨ a1 = a2) := by
          intro hcon
          rcases hcon with hc | hc | hc
          · exact ha1mut hc
          · exact ha1sh hc
          · rw [hc] at ha1src
            exact ha1src ha2src
        rw [if_neg hnoborrow]
        split
        · -- the existing entry's cell holds an object: recurse
          rename_i child1 hha1
          cases t1 with
          | prim w =>
            exfalso
            have hparts : h a1 = w ∧ w.isObject = false := by
              simpa [StoresAt] using hstA1
            have hw : w = Value.object child1 := hparts.1.symm.trans hha1
            rw [hw, Value.isObject] at hparts
            exact Bool.noConfusion hparts.2
          | obj es1 =>
            have hstA1parts : h a1 = Value.object (entriesMap es1) ∧ StoresAllE h es1 := by
              simpa [StoresAt] using hstA1
            have hchild1 : child1 = entriesMap es1 :=
              Value.object.inj (hha1.symm.trans hstA1parts.1)
            subst hchild1
            have hsnapEq : snapAddrs (Snap.obj es1) = addrsE es1 := by rw [snapAddrs]
            have hdepc : depthE ces < B := by
              have h1 : snapDepth (Snap.obj ces) ≤ depthE ((k, a2, Snap.obj ces) :: rest) := by
                rw [depthE]
                exact le_max_left _ _
              rw [snapDepth] at h1
              omega
            have hwfc : (keysE ces).Nodup ∧ entriesWF ces := by
              have h1 := hwf.1
              simpa [snapWF] using h1
            have hconeNodup : (a1 :: addrsE es1).Nodup := by
              have h1 := hconeA1.1
              rwa [hsnapEq] at h1
            have ha1NotIn : a1 ∉ addrsE es1 := (List.nodup_cons.mp hconeNodup).1
            have hes1Nodup : (addrsE es1).Nodup := (List.nodup_cons.mp hconeNodup).2
            have hconeForall : ∀ x ∈ a1 :: addrsE es1,
                x ∉ addrsE ((k, a2, Snap.obj ces) :: rest) ∧ x ∉ mutB ∧ x ∉ shB := by
              have h1 := hconeA1.2
              rwa [hsnapEq] at h1
            have hcessub : ∀ x, x ∈ addrsE ces →
                x ∈ addrsE ((k, a2, Snap.obj ces) :: rest) := by
              intro x hx
              rw [addrsE]
              refine List.mem_append_left _ ?_
              exact List.mem_cons_of_mem _ (by rw [snapAddrs]; exact hx)
            have hdokc : DestOK h (entriesMap es1) ces (a1 :: mutB) (a2 :: shB) := by
              intro k3 hk3 b hbg
              obtain ⟨tb, _, hmem, hstb, hbsub⟩ :=
                snapshot_of_objGet h es1 k3 b hstA1parts.2 hbg
              refine ⟨⟨tb, hstb⟩, ?_⟩
              intro u hu
              have huu : u = tb := storesAt_unique u tb b h hu hstb
              subst huu
              constructor
              · exact List.Nodup.sublist (cone_sublist es1 k3 b u hmem) hes1Nodup
              · intro x hx
                have hxes1 : x ∈ addrsE es1 := hbsub x hx
                obtain ⟨hx1, hx2, hx3⟩ :=
                  hconeForall x (List.mem_cons_of_mem _ hxes1)
                refine ⟨fun hcon => hx1 (hcessub x hcon), ?_, ?_⟩
                · intro hcon
                  rcases List.mem_cons.mp hcon with hc | hc
                  · rw [hc] at hxes1
                    exact ha1NotIn hxes1
                  · exact hx2 hc
                · intro hcon
                  rcases List.mem_cons.mp hcon with hc | hc
                  · rw [hc] at hx1
                    exact hx1 ha2src
                  · exact hx3 hc
            have hdpwc : DestPairwise h (entriesMap es1) ces := by
              intro k3 k4 hk3 hk4 hne34 b c u w hbg hcg hbu hcw
              obtain ⟨tb, hlkb, _, hstb, _⟩ :=
                snapshot_of_objGet h es1 k3 b hstA1parts.2 hbg
              obtain ⟨tc, hlkc, _, hstc, _⟩ :=
                snapshot_of_objGet h es1 k4 c hstA1parts.2 hcg
              have hub : u = tb := storesAt_unique u tb b h hbu hstb
              have hwc : w = tc := storesAt_unique w tc c h hcw hstc
              subst hub
              subst hwc
              exact lookup_cones_disjoint es1 k3 k4 b c u w hes1Nodup hne34 hlkb hlkc
            have hmutc : ∀ x ∈ addrsE ces, x ∉ a1 :: mutB := by
              intro x hx hcon
              rcases List.mem_cons.mp hcon with hc | hc
              · rw [hc] at hx
                exact (hconeForall a1 (List.mem_cons_self _ _)).1 (hcessub a1 hx)
              · exact hmut x (hcessub x hx) hc
            obtain ⟨cm, ch, hcEq, hcConf, hcMap⟩ :=
              Hrec ces true (a1 :: mutB) (a2 :: shB) (entriesMap es1) h hdepc
                hstA2parts.2 hwfc.1 hwfc.2 hmutc hdokc hdpwc
            split
            · rename_i cm2 ch2 hcEq2
              rw [hcEq] at hcEq2
              have hcm : cm = cm2 := congrArg Prod.fst (Option.some.inj hcEq2)
              have hch : ch = ch2 := congrArg Prod.snd (Option.some.inj hcEq2)
              subst hcm
              subst hch
              -- ch agrees with h off the a1 cone
              have hchAg : ∀ a, a ∉ a1 :: addrsE es1 → ch a = h a := by
                intro a ha
                refine hcConf a ?_
                intro k3 hk3 b u hbg hbu
                obtain ⟨tb, _, _, hstb, hbsub⟩ :=
                  snapshot_of_objGet h es1 k3 b hstA1parts.2 hbg
                have huu : u = tb := storesAt_unique u tb b h hbu hstb
                subst huu
                intro hcon
                exact ha (List.mem_cons_of_mem _ (hbsub a hcon))
              have hh3Ag : ∀ a, a ∉ a1 :: addrsE es1 →
                  updateHeap ch a1 (Value.object cm) a = h a := by
                intro a ha
                have hne : a ≠ a1 := fun hcon => ha (hcon ▸ List.mem_cons_self _ _)
                rw [updateHeap]
                simp only [if_neg hne]
                exact hchAg a ha
              have hrestCone : ∀ k3, k3 ∈ keysE rest → ∀ b u, objGet m1 k3 = some b →
                  StoresAt h b u →
                  List.Disjoint (b :: snapAddrs u) (a1 :: addrsE es1) := by
                intro k3 hk3 b u hbg hbu
                have hne : k3 ≠ k := fun hcon => hndk (hcon ▸ hk3)
                have hd := hdpw k3 k (hresttail k3 hk3) hkhead hne b a1 u (Snap.obj es1)
                  hbg hget hbu hstA1
                rwa [hsnapEq] at hd
              have hkeep : ∀ k3, k3 ∈ keysE rest → ∀ b tb, objGet m1 k3 = some b →
                  StoresAt h b tb → StoresAt (updateHeap ch a1 (Value.object cm)) b tb := by
                intro k3 hk3 b tb hbg hstb
                have hdisj := hrestCone k3 hk3 b tb hbg hstb
                refine storesAt_stable tb b h _ ?_ hstb
                intro x hx
                exact hh3Ag x (fun hcon => hdisj hx hcon)
              have hstRest3 : StoresAllE (updateHeap ch a1 (Value.object cm)) rest := by
                refine storesAllE_stable rest h _ ?_ hst.2
                intro x hx
                refine hh3Ag x ?_
                intro hcon
                exact (hconeForall x hcon).1 (haddrrest x hx)
              have hdok3 : DestOK (updateHeap ch a1 (Value.object cm)) m1 rest mutB shB := by
                intro k3 hk3 b hbg
                obtain ⟨⟨tb, hstb⟩, hfor⟩ := hdok k3 (hresttail k3 hk3) b hbg
                have hstb3 := hkeep k3 hk3 b tb hbg hstb
                refine ⟨⟨tb, hstb3⟩, ?_⟩
                intro u hu3
                have huu : u = tb := storesAt_unique u tb b _ hu3 hstb3
                subst huu
                exact coneFacts_mono _ _ _ _ _ _ haddrrest (hfor u hstb)
              have hdpw3 : DestPairwise (updateHeap ch a1 (Value.object cm)) m1 rest := by
                intro k3 k4 hk3 hk4 hne34 b c u w hbg hcg hbu3 hcw3
                obtain ⟨⟨tb, hstb⟩, _⟩ := hdok k3 (hresttail k3 hk3) b hbg
                obtain ⟨⟨tc, hstc⟩, _⟩ := hdok k4 (hresttail k4 hk4) c hcg
                have hstb3 := hkeep k3 hk3 b tb hbg hstb
                have hstc3 := hkeep k4 hk4 c tc hcg hstc
                have hub : u = tb := storesAt_unique u tb b _ hbu3 hstb3
                have hwc : w = tc := storesAt_unique w tc c _ hcw3 hstc3
                subst hub
                subst hwc
                exact hdpw k3 k4 (hresttail k3 hk3) (hresttail k4 hk4) hne34 b c u w
                  hbg hcg hstb hstc
              obtain ⟨mr, hr, hreq, hrconf, hrmap⟩ :=
                ih true mutB shB m1 (updateHeap ch a1 (Value.object cm)) hdeprest
                  hstRest3 hndrest hwf.2 (fun x hx => hmut x (haddrrest x hx)) hdok3 hdpw3
              refine ⟨mr, hr, hreq, ?_, ?_⟩
              · intro a hprem
                have hnotA1 : a ∉ a1 :: snapAddrs (Snap.obj es1) :=
                  hprem k hkhead a1 (Snap.obj es1) hget hstA1
                rw [hsnapEq] at hnotA1
                have h3a := hh3Ag a hnotA1
                have hra : hr a = updateHeap ch a1 (Value.object cm) a := by
                  refine hrconf a ?_
                  intro k3 hk3 b u hbg hbu3
                  obtain ⟨⟨tb, hstb⟩, _⟩ := hdok k3 (hresttail k3 hk3) b hbg
                  have hstb3 := hkeep k3 hk3 b tb hbg hstb
                  have huu : u = tb := storesAt_unique u tb b _ hbu3 hstb3
                  subst huu
                  exact hprem k3 (hresttail k3 hk3) b u hbg hstb
                rw [hra, h3a]
              · intro k3 hk3
                exact hrmap k3 (fun hcon => hk3 (hresttail k3 hcon))
            · rename_i hcEq2
              rw [hcEq] at hcEq2
              exact Option.noConfusion hcEq2
        · -- the existing entry's cell does not hold an object: plain insert
          exact hins
    · -- shallow mode, missing key, or non-object source value: plain insert
      exact hins

/-- `merge_maps` in the cell model, with fuel exceeding the source's
nesting depth: the merge completes, writes only inside the destination
cones at the source's keys, and keeps the destination's entries at every
other key. -/
theorem mergeFuel_confined :
    ∀ (fuel : Nat) (es2 : List (String × Addr × Snap)) (deep : Bool)
      (mutB shB : List Addr) (m1 : ObjMap) (h : Heap), depthE es2 < fuel →
      StoresAllE h es2 → (keysE es2).Nodup → entriesWF es2 →
      (∀ x ∈ addrsE es2, x ∉ mutB) → DestOK h m1 es2 mutB shB → DestPairwise h m1 es2 →
      MergeOK h m1 es2 (mergeFuel fuel deep mutB shB (entriesMap es2) m1 h) := by
  intro fuel
  induction fuel with
  | zero =>
    intro es2 deep mutB shB m1 h hdep _ _ _ _ _ _
    exact absurd hdep (Nat.not_lt_zero _)
  | succ fuel ihf =>
    intro es2 deep mutB shB m1 h hdep hst hnd hwf hmut hdok hdpw
    have hstep : mergeFuel (fuel + 1) deep mutB shB (entriesMap es2) m1 h
        = mergeLoop (mergeFuel fuel) deep mutB shB (entriesMap es2) m1 h := rfl
    rw [hstep]
    refine mergeLoop_confined (mergeFuel fuel) fuel ?_ es2 deep mutB shB m1 h ?_
      hst hnd hwf hmut hdok hdpw
    · intro es2b deepb mutBb shBb m1b hb hdepb hstb hndb hwfb hmutb hdokb hdpwb
      exact ihf es2b deepb mutBb shBb m1b hb hdepb hstb hndb hwfb hmutb hdokb hdpwb
    · omega

/-- When the destination's reachable cells are pairwise distinct and
disjoint from the source's, the destination cones satisfy the merge-loop
invariant with no outstanding borrows. -/
theorem tree_dest_invariants (h : Heap) (es1 es2 : List (String × Addr × Snap))
    (hd1 : StoresAllE h es1) (hnd1 : (addrsE es1).Nodup)
    (hdisj : List.Disjoint (addrsE es1) (addrsE es2)) :
    DestOK h (entriesMap es1) es2 ([] : List Addr) ([] : List Addr)
    ∧ DestPairwise h (entriesMap es1) es2 := by
  constructor
  · intro k hk b hbg
    obtain ⟨tb, _, hmem, hstb, hbsub⟩ := snapshot_of_objGet h es1 k b hd1 hbg
    refine ⟨⟨tb, hstb⟩, ?_⟩
    intro u hu
    have huu : u = tb := storesAt_unique u tb b h hu hstb
    subst huu
    refine ⟨List.Nodup.sublist (cone_sublist es1 k b u hmem) hnd1, ?_⟩
    intro x hx
    exact ⟨fun hcon => hdisj (hbsub x hx) hcon, by simp, by simp⟩
  · intro k1 k2 _ _ hne b c u w hbg hcg hbu hcw
    obtain ⟨tb, hlkb, _, hstb, _⟩ := snapshot_of_objGet h es1 k1 b hd1 hbg
    obtain ⟨tc, hlkc, _, hstc, _⟩ := snapshot_of_objGet h es1 k2 c hd1 hcg
    have hub : u = tb := storesAt_unique u tb b h hbu hstb
    have hwc : w = tc := storesAt_unique w tc c h hcw hstc
    subst hub
    subst hwc
    exact lookup_cones_disjoint es1 k1 k2 b c u w hnd1 hne hlkb hlkc

/-- Claim C9 amended: assuming (as the claim does) that the destination and
source objects share no value cells, and additionally that the
destination's reachable cells are pairwise distinct (no aliasing *inside*
the destination, which the counterexample exploits), the merge completes
and the content of the source object — and of every value reachable from
it — is unchanged, for every deep flag.  Snapshot well-formedness and
sufficient fuel reflect the `BTreeMap` key-uniqueness invariant and the
bounded call stack. -/
theorem merge_maps_source_preserved (fuel : Nat) (deep : Bool) (h : Heap)
    (es1 es2 : List (String × Addr × Snap))
    (hd1 : StoresAllE h es1) (hd2 : StoresAllE h es2)
    (hnd1 : (addrsE es1).Nodup)
    (hdisj : List.Disjoint (addrsE es1) (addrsE es2))
    (hk2 : (keysE es2).Nodup) (hw2 : entriesWF es2)
    (hfuel : depthE es2 < fuel) :
    ∃ mr hr, mergeFuel fuel deep [] [] (entriesMap es2) (entriesMap es1) h
        = some (mr, hr) ∧ StoresAllE hr es2 := by
  obtain ⟨hdok, hdpw⟩ := tree_dest_invariants h es1 es2 hd1 hnd1 hdisj
  obtain ⟨mr, hr, heq, hconf, _⟩ :=
    mergeFuel_confined fuel es2 deep [] [] (entriesMap es1) h hfuel hd2 hk2 hw2
      (by simp) hdok hdpw
  refine ⟨mr, hr, heq, ?_⟩
  refine storesAllE_stable es2 h hr ?_ hd2
  intro x hx
  refine hconf x ?_
  intro k hk b u hbg hbu
  obtain ⟨tb, _, hmem, hstb, hbsub⟩ := snapshot_of_objGet h es1 k b hd1 hbg
  have huu : u = tb := storesAt_unique u tb b h hbu hstb
  subst huu
  intro hcon
  exact hdisj (hbsub x hcon) hx

/-- Witness for the amended claim C9 theorem at a concrete input: one
destination cell, a two-level source. -/
theorem merge_maps_source_preserved_witness :
    (StoresAllE c10Heap [("a", 0, Snap.obj [])] ∧
     StoresAllE c10Heap [("a", 1, Snap.obj [("x", 2, Snap.prim (Value.integer 1))])] ∧
     (addrsE [("a", 0, Snap.obj [])]).Nodup ∧
     List.Disjoint (addrsE [("a", 0, Snap.obj [])])
       (addrsE [("a", 1, Snap.obj [("x", 2, Snap.prim (Value.integer 1))])]) ∧
     (keysE [("a", 1, Snap.obj [("x", 2, Snap.prim (Value.integer 1))])]).Nodup ∧
     entriesWF [("a", 1, Snap.obj [("x", 2, Snap.prim (Value.integer 1))])] ∧
     depthE [("a", 1, Snap.obj [("x", 2, Snap.prim (Value.integer 1))])] < 3) ∧
    (∃ mr hr, mergeFuel 3 true [] []
        (entriesMap [("a", 1, Snap.obj [("x", 2, Snap.prim (Value.integer 1))])])
        (entriesMap [("a", 0, Snap.obj [])]) c10Heap = some (mr, hr) ∧
      StoresAllE hr [("a", 1, Snap.obj [("x", 2, Snap.prim (Value.integer 1))])]) := by
  refine ⟨⟨?_, ?_, ?_, ?_, ?_, ?_, ?_⟩, ?_⟩
  · simp [StoresAllE, StoresAt, entriesMap, c10Heap]
  · simp [StoresAllE, StoresAt, entriesMap, c10Heap, Value.isObject]
  · simp [addrsE, snapAddrs]
  · simp [addrsE, snapAddrs, List.Disjoint]
  · simp [keysE]
  · simp [entriesWF, snapWF, keysE]
  · simp [depthE, snapDepth]
  · exact merge_maps_source_preserved 3 true c10Heap
      [("a", 0, Snap.obj [])]
      [("a", 1, Snap.obj [("x", 2, Snap.prim (Value.integer 1))])]
      (by simp [StoresAllE, StoresAt, entriesMap, c10Heap])
      (by simp [StoresAllE, StoresAt, entriesMap, c10Heap, Value.isObject])
      (by simp [addrsE, snapAddrs])
      (by simp [addrsE, snapAddrs, List.Disjoint])
      (by simp [keysE])
      (by simp [entriesWF, snapWF, keysE])
      (by simp [depthE, snapDepth])

/-- Claim C10 amended: for a key present in the destination and absent from
the source, the destination's entry keeps the very same cell, and —
assuming additionally that the destination's reachable cells are pairwise
distinct and share nothing with the source (the counterexample shows the
value clause fails otherwise) — that cell's contained value is unchanged,
for every deep flag. -/
theorem merge_maps_absent_key_preserved (fuel : Nat) (deep : Bool) (h : Heap)
    (es1 es2 : List (String × Addr × Snap)) (k : String) (a : Addr) (t : Snap)
    (hd1 : StoresAllE h es1) (hd2 : StoresAllE h es2)
    (hnd1 : (addrsE es1).Nodup) (hk1 : (keysE es1).Nodup)
    (hdisj : List.Disjoint (addrsE es1) (addrsE es2))
    (hk2 : (keysE es2).Nodup) (hw2 : entriesWF es2)
    (hfuel : depthE es2 < fuel)
    (hmem : (k, a, t) ∈ es1) (habsent : k ∉ keysE es2) :
    ∃ mr hr, mergeFuel fuel deep [] [] (entriesMap es2) (entriesMap es1) h
        = some (mr, hr) ∧ objGet mr k = some a ∧ StoresAt hr a t := by
  obtain ⟨hdok, hdpw⟩ := tree_dest_invariants h es1 es2 hd1 hnd1 hdisj
  obtain ⟨mr, hr, heq, hconf, hmap⟩ :=
    mergeFuel_confined fuel es2 deep [] [] (entriesMap es1) h hfuel hd2 hk2 hw2
      (by simp) hdok hdpw
  have hlk : lookupE es1 k = some (a, t) := lookupE_of_mem_nodup es1 k a t hk1 hmem
  have hget : objGet (entriesMap es1) k = some a := by
    rw [objGet_entriesMap, hlk]
    rfl
  have hsta : StoresAt h a t := storesAllE_mem h es1 k a t hd1 hmem
  refine ⟨mr, hr, heq, ?_, ?_⟩
  · rw [hmap k habsent, hget]
  · refine storesAt_stable t a h hr ?_ hsta
    intro x hx
    refine hconf x ?_
    intro k2 hk2mem b u hbg hbu
    obtain ⟨tb, hlkb, _, hstb, _⟩ := snapshot_of_objGet h es1 k2 b hd1 hbg
    have huu : u = tb := storesAt_unique u tb b h hbu hstb
    subst huu
    have hne : k ≠ k2 := fun hcon => habsent (hcon ▸ hk2mem)
    exact fun hcon => lookup_cones_disjoint es1 k k2 a b t u hnd1 hne hlk hlkb hx hcon

/-- Witness for the amended claim C10 theorem at a concrete input: the
destination holds keys `a` and `b` in distinct cells, the source only
key `a`. -/
theorem merge_maps_absent_key_preserved_witness :
    ((3 : Addr) = 3 ∧ ("b" : String) ∉
        keysE [("a", 1, Snap.obj [("x", 2, Snap.prim (Value.integer 1))])]) ∧
    (∃ mr hr, mergeFuel 3 true [] []
        (entriesMap [("a", 1, Snap.obj [("x", 2, Snap.prim (Value.integer 1))])])
        (entriesMap [("a", 0, Snap.obj []), ("b", 3, Snap.prim (Value.integer 1))]) c10Heap
        = some (mr, hr) ∧
      objGet mr "b" = some 3 ∧ StoresAt hr 3 (Snap.prim (Value.integer 1))) := by
  refine ⟨⟨rfl, by simp [keysE]⟩, ?_⟩
  exact merge_maps_absent_key_preserved 3 true c10Heap
    [("a", 0, Snap.obj []), ("b", 3, Snap.prim (Value.integer 1))]
    [("a", 1, Snap.obj [("x", 2, Snap.prim (Value.integer 1))])]
    "b" 3 (Snap.prim (Value.integer 1))
    (by simp [StoresAllE, StoresAt, entriesMap, c10Heap, Value.isObject])
    (by simp [StoresAllE, StoresAt, entriesMap, c10Heap, Value.isObject])
    (by simp [addrsE, snapAddrs])
    (by simp [keysE])
    (by simp [addrsE, snapAddrs, List.Disjoint])
    (by simp [keysE])
    (by simp [entriesWF, snapWF, keysE])
    (by simp [depthE, snapDepth])
    (by simp)
    (by simp [keysE])

/-! ## Part 3: compile-time contract

`Merge::parameters` and the `deep`-ignoring shape of `MergeFn::type_def`
are in merge.rs; the compiler machinery they feed (`ArgumentList` binding,
`TypeDef::merge_shallow`) lives outside this repository's sources and is
modelled from the spec. -/

/-- Argument kinds used by the `merge` declaration (`kind::OBJECT`,
`kind::BOOLEAN`). -/
inductive ArgKind where
  | object
  | boolean
  deriving DecidableEq

/-- One parameter declaration (`vrl::Parameter`): keyword, accepted kind,
and whether the argument is required. -/
structure Parameter where
  keyword : String
  kind : ArgKind
  required : Bool
  deriving DecidableEq

/-- The parameter list declared by `Merge::parameters` in merge.rs:
`to` (OBJECT, optional), `from` (OBJECT, required),
`deep` (BOOLEAN, optional). -/
def mergeParameters : List Parameter :=
  [⟨"to", ArgKind.object, false⟩,
   ⟨"from", ArgKind.object, true⟩,
   ⟨"deep", ArgKind.boolean, false⟩]

inductive CompileError where
  | missingRequiredArgument (keyword : String)
  deriving DecidableEq

/-- Modelled from the spec: the compiler's argument binding
(`ArgumentList` and the function-call checker, not part of this
repository's sources) checks the declared parameter list against the
keywords supplied at the call site, and fails with `MissingRequiredArgument`
exactly when a parameter declared `required` is absent (spec §4.3: "At
compile time, binding fails with a `MissingRequiredArgument` condition if
`from` is absent"; `to` and `deep` are optional). -/
def bindArguments (supplied : List String) : Except CompileError Unit :=
  match mergeParameters.find? (fun p => p.required && !(supplied.contains p.keyword)) with
  | some p => Except.error (CompileError.missingRequiredArgument p.keyword)
  | none => Except.ok ()

/-- Claim C3: the declaration marks `to` optional and `from` required;
binding fails, with `MissingRequiredArgument` for `from`, exactly when
`from` is absent from the supplied keywords; in particular a call that
omits `to` but supplies `from` binds successfully. -/
theorem merge_binding_missing_from (supplied : List String) :
    ((mergeParameters.find? (fun p => p.keyword == "to")).map (fun p => p.required)
        = some false
      ∧ (mergeParameters.find? (fun p => p.keyword == "from")).map (fun p => p.required)
        = some true)
    ∧ (bindArguments supplied
        = Except.error (CompileError.missingRequiredArgument "from")
        ↔ supplied.contains "from" = false)
    ∧ (∀ e, bindArguments supplied = Except.error e
        → e = CompileError.missingRequiredArgument "from")
    ∧ bindArguments ["from"] = Except.ok () := by
  refine ⟨⟨rfl, rfl⟩, ?_, ?_, rfl⟩
  · cases hc : supplied.contains "from" with
    | false =>
      have hb : bindArguments supplied
          = Except.error (CompileError.missingRequiredArgument "from") := by
        simp at hc
        simp [bindArguments, mergeParameters, List.find?, hc]
      rw [hb]
      simp
    | true =>
      have hb : bindArguments supplied = Except.ok () := by
        simp at hc
        simp [bindArguments, mergeParameters, List.find?, hc]
      rw [hb]
      simp
  · intro e he
    cases hc : supplied.contains "from" with
    | false =>
      have hb : bindArguments supplied
          = Except.error (CompileError.missingRequiredArgument "from") := by
        simp at hc
        simp [bindArguments, mergeParameters, List.find?, hc]
      rw [hb] at he
      exact (Except.error.inj he).symm
    | true =>
      have hb : bindArguments supplied = Except.ok () := by
        simp at hc
        simp [bindArguments, mergeParameters, List.find?, hc]
      rw [hb] at he
      exact Except.noConfusion he

/-- Modelled from the spec (§3, §4.4): a compile-time Type Descriptor.  For
Object-typed descriptors, a mapping from known key to nested descriptor;
`scalar` stands for the non-object descriptors, identified by a kind name.
The host's `TypeDef` type is not part of this repository's sources. -/
inductive TypeDesc where
  | scalar (kindName : String)
  | objectDesc (fields : List (String × TypeDesc))

/-- Look up a known key in a descriptor field map. -/
def tdLookup (k : String) : List (String × TypeDesc) → Option TypeDesc
  | [] => none
  | (k2, d) :: rest => if k2 = k then some d else tdLookup k rest

/-- Modelled from the spec: `TypeDef::merge_shallow` (not part of this
repository's sources) on the field maps of two object descriptors — "the
shallow union of the `to` operand's Type Descriptor and the `from`
operand's Type Descriptor: for each key known to either side, the result's
descriptor for that key is `from`'s descriptor if present, else `to`'s"
(spec §4.4). -/
def mergeShallow (toF fromF : List (String × TypeDesc)) : List (String × TypeDesc) :=
  toF.filter (fun e => (tdLookup e.1 fromF).isNone) ++ fromF

/-- `MergeFn::type_def` (merge.rs): the result descriptor is
`self.to.type_def(state).merge_shallow(self.from.type_def(state))`.  The
`deep` operand is part of `MergeFn` but is not consulted, so this model
takes the `deep` argument's (runtime) value and ignores it. -/
def mergeFnTypeDef (toF fromF : List (String × TypeDesc)) (deep : Bool) :
    List (String × TypeDesc) :=
  mergeShallow toF fromF

/-- Claim C4: the compile-time descriptor of the merge result is the
shallow union of the operand descriptors — for each key, `from`'s
descriptor if present, else `to`'s — and it is the same regardless of the
`deep` argument's value. -/
theorem merge_type_def_shallow_union (toF fromF : List (String × TypeDesc))
    (deep deep2 : Bool) (k : String) :
    (tdLookup k (mergeFnTypeDef toF fromF deep)
      = (match tdLookup k fromF with
         | some d => some d
         | none => tdLookup k toF))
    ∧ mergeFnTypeDef toF fromF deep = mergeFnTypeDef toF fromF deep2 := by
  refine ⟨?_, rfl⟩
  simp only [mergeFnTypeDef, mergeShallow]
  induction toF with
  | nil =>
    simp only [List.filter_nil, List.nil_append]
    cases tdLookup k fromF <;> simp [tdLookup]
  | cons e rest ih =>
    obtain ⟨k2, d⟩ := e
    rw [List.filter_cons]
    by_cases hcond : (tdLookup k2 fromF).isNone = true
    · rw [if_pos hcond, List.cons_append]
      have hnone : tdLookup k2 fromF = none := Option.isNone_iff_eq_none.mp hcond
      by_cases he : k2 = k
      · subst he
        rw [hnone]
        simp [tdLookup]
      · rw [show tdLookup k ((k2, d) :: (List.filter
            (fun e => (tdLookup e.1 fromF).isNone) rest ++ fromF))
          = tdLookup k (List.filter (fun e => (tdLookup e.1 fromF).isNone) rest ++ fromF)
          from by rw [tdLookup, if_neg he], ih]
        cases tdLookup k fromF <;> simp [tdLookup, he]
    · rw [if_neg hcond]
      by_cases he : k2 = k
      · subst he
        cases hf : tdLookup k2 fromF with
        | none =>
          rw [hf] at hcond
          simp [Option.isNone] at hcond
        | some d2 =>
          rw [ih, hf]
      · rw [ih]
        cases tdLookup k fromF <;> simp [tdLookup, he]

end Vrl
